import Mathlib

/-!
Verification development for the Stochastic-Integrator repository.

The development shallowly embeds the two subsystems of the repository:

* `src/reverse.cpp` — the reverse-Polish parser (`parse_reverse_polish`),
  the fixed-point tree simplifier (`visit`, `simplify_pass_helper`,
  `simplify_pass`, `simplify`) and the precedence-aware printer
  (`to_string` methods), embedded below as `parseRP`, `visit`,
  `simplifyPass`, `simplify` and `render`.

* `src/integrator.h` — the xorshift PRNG (`CustomGenerator`), the random
  postfix generator (`Composer::compose` / `Composer::gen_random_expr`),
  the compiler (`Composer::compile` / `operator_dict`) and the stack
  evaluator (`Composer::eval` over a `boost::circular_buffer<double>` of
  capacity 64), embedded below as `xorshift32` / `rngNext`, `genLoop` /
  `genRandomExpr` / `compose`, `operatorDict` / `compileProg`, and
  `runCB` / `evalMember`.

Machine integers are embedded as `Nat`/`Int` with explicit reductions
modulo `2^32` (resp. `2^64`) exactly where the C++ performs a 32-bit
(resp. 64-bit) operation or conversion.  In particular the C++
`CustomGenerator::result_type` is `int`, so the value returned by
`operator()` is the two's-complement reinterpretation of the 32-bit
state (`int32ofUInt32`), and `rng() % n` on `int` operands is C's
truncated remainder (`Int.tmod`).

IEEE-754 doubles carried by the evaluator's operand stack are embedded
as real numbers; every theorem proved about the evaluator concerns only
the stack discipline (underflow, depth, final shape) and is independent
of the values computed, so nothing depends on rounding behaviour.
-/

/-! ## The expression tree of `reverse.cpp`

One tagged variant per concrete `AST` subclass: `IntAST`, `VariableAST`,
`FuncAST` (which stores the rendered function name), `BinaryOperatorAST`
(which stores the operator symbol) and `NegativeOperatorAST`. -/

inductive AST : Type where
  | int (value : Int)
  | var (name : String)
  | func (fname : String) (argument : AST)
  | binop (op : Char) (lhs rhs : AST)
  | neg (rhs : AST)
deriving DecidableEq, Repr

/-- Node count of a tree (used as the simplifier's termination measure). -/
def astSize : AST → Nat
  | .int _ => 1
  | .var _ => 1
  | .func _ a => 1 + astSize a
  | .binop _ l r => 1 + astSize l + astSize r
  | .neg a => 1 + astSize a

/-- `Operator::eval_precedence` of `reverse.cpp`.  The `assert(false)`
branch for undefined symbols is embedded as the junk value `0`; it is
unreachable from the parser, which only builds the five listed ops. -/
def evalPrecedence : Char → Nat
  | '+' => 50
  | '-' => 50
  | '*' => 60
  | '/' => 60
  | '^' => 70
  | _ => 0

/-- `FuncAST::eval_func_name`.  The `assert(false)` branch is embedded
as `""`; the parser only passes the five listed symbols. -/
def evalFuncName : Char → String
  | 'S' => "sin"
  | 'C' => "cos"
  | 'T' => "tan"
  | 'R' => "sqrt"
  | 'L' => "log"
  | _ => ""

/-- `(int)std::pow(a, b)` as computed by the `case '^'` fold of `visit`.
For `b ≥ 0` and operands small enough that the double computation is
exact (every input exercised in this development) this is integer
exponentiation; for `b < 0` it is the truncation toward zero of the
real power. -/
def cppPowInt (a b : Int) : Int :=
  if 0 ≤ b then a ^ b.toNat
  else if a = 1 then 1
  else if a = -1 then (if b % 2 = 0 then 1 else -1)
  else 0

/-- The per-node rewriter `visit` of `reverse.cpp` (lines 300–373),
returning `some newNode` where the C++ replaces `node` and returns
`true`, and `none` where it returns `false`.

Faithfulness notes:
* the `case '/'` of the integer-folding `switch` has no `break`; when
  `a % b != 0` control falls through into `case '^'`, so the node is
  folded to `Int((int)std::pow(a, b))` rather than left unchanged;
* C++ `%` on `int` is the truncated remainder, `Int.tmod`, and `/` is
  truncated division, `Int.tdiv`;
* an operator symbol outside `+ - * / ^` (unreachable from the parser)
  matches no `case`, so control continues to the final
  "integer 1 is the multiplication identity" block, which applies to a
  `BinOp` of *any* operator symbol. -/
def visit : AST → Option AST
  | .neg (.int v) => some (.int (-v))
  | .neg (.neg x) => some x
  | .binop op l r =>
    match l, r with
    | .int a, .int b =>
      if op = '+' then some (.int (a + b))
      else if op = '-' then some (.int (a - b))
      else if op = '*' then some (.int (a * b))
      else if op = '/' then
        (if Int.tmod a b = 0 then some (.int (Int.tdiv a b))
         else some (.int (cppPowInt a b)))
      else if op = '^' then some (.int (cppPowInt a b))
      else
        if a = 1 then some (.int b)
        else if b = 1 then some (.int a)
        else none
    | .int a, _ =>
      if a = 1 then some r else none
    | _, .int b =>
      if b = 1 then some l else none
    | _, _ => none
  | _ => none

/-- One bottom-up pass: `simplify_pass_helper`/`simplify_pass` of
`reverse.cpp`.  The helper recurses into the children of `FuncAST` and
`BinaryOperatorAST` nodes only — a `NegativeOperatorAST` child is *not*
descended into — and then applies `visit` to the rebuilt node.  The
boolean records whether any `visit` in the pass modified a node. -/
def simplifyPass : AST → AST × Bool
  | .func fn a =>
    let p := simplifyPass a
    let n := AST.func fn p.1
    match visit n with
    | some n' => (n', true)
    | none => (n, p.2)
  | .binop op l r =>
    let pl := simplifyPass l
    let pr := simplifyPass r
    let n := AST.binop op pl.1 pr.1
    match visit n with
    | some n' => (n', true)
    | none => (n, pl.2 || pr.2)
  | .neg a =>
    let n := AST.neg a
    match visit n with
    | some n' => (n', true)
    | none => (n, false)
  | .int v =>
    match visit (.int v) with
    | some n' => (n', true)
    | none => (.int v, false)
  | .var s =>
    match visit (.var s) with
    | some n' => (n', true)
    | none => (.var s, false)

/-- Fuel-bounded iteration of `simplifyPass`.  The C++ `simplify` is
`do {} while (simplify_pass(root));`, an unbounded loop; since every
modifying pass strictly reduces `astSize` (proved below) and a tree has
size ≥ 1, `astSize t` passes always suffice to reach the loop's exit
condition, which `simplify_reaches_fixpoint` below makes precise. -/
def simplifyFuel : Nat → AST → AST
  | 0, t => t
  | fuel + 1, t =>
    let p := simplifyPass t
    if p.2 then simplifyFuel fuel p.1 else p.1

/-- `simplify` of `reverse.cpp`: iterate passes to the fixed point. -/
def simplify (t : AST) : AST := simplifyFuel (astSize t) t

/-! ## The reverse-Polish parser of `reverse.cpp` -/

/-- The character loop of `parse_reverse_polish`, over a stack of trees
with the top at the head.  A pop from an empty stack (undefined
behaviour on `std::stack`) and the `default: assert(false)` branch are
embedded as `none`. -/
def parseLoop : List Char → List AST → Option (List AST)
  | [], stk => some stk
  | c :: rest, stk =>
    match c with
    | '0' => parseLoop rest (.int 0 :: stk)
    | '1' => parseLoop rest (.int 1 :: stk)
    | 'x' => parseLoop rest (.var "x" :: stk)
    | 'y' => parseLoop rest (.var "y" :: stk)
    | 'z' => parseLoop rest (.var "z" :: stk)
    | 'a' => parseLoop rest (.var "a" :: stk)
    | 'b' => parseLoop rest (.var "b" :: stk)
    | 'c' => parseLoop rest (.var "c" :: stk)
    | 'S' | 'C' | 'T' | 'R' | 'L' =>
      match stk with
      | arg :: stk' => parseLoop rest (.func (evalFuncName c) arg :: stk')
      | [] => none
    | '+' | '-' | '*' | '/' =>
      match stk with
      | rhs :: lhs :: stk' => parseLoop rest (.binop c lhs rhs :: stk')
      | _ => none
    | '\\' =>
      match stk with
      | rhs :: stk' => parseLoop rest (.binop '/' (.int 1) rhs :: stk')
      | [] => none
    | 'H' =>
      match stk with
      | lhs :: stk' => parseLoop rest (.binop '/' lhs (.int 2) :: stk')
      | [] => none
    | '<' =>
      match stk with
      | lhs :: stk' => parseLoop rest (.binop '-' lhs (.int 1) :: stk')
      | [] => none
    | '>' =>
      match stk with
      | lhs :: stk' => parseLoop rest (.binop '+' lhs (.int 1) :: stk')
      | [] => none
    | '2' =>
      match stk with
      | lhs :: stk' => parseLoop rest (.binop '^' lhs (.int 2) :: stk')
      | [] => none
    | '~' =>
      match stk with
      | rhs :: stk' => parseLoop rest (.neg rhs :: stk')
      | [] => none
    | _ => none

/-- `parse_reverse_polish`: run the loop from an empty stack; the final
`assert(stack.size() == 1)` is embedded as `none` on any other size. -/
def parseRP (src : List Char) : Option AST :=
  match parseLoop src [] with
  | some [t] => some t
  | _ => none

/-- `parse_reverse_polish` on a `std::string_view`. -/
def parseRPStr (s : String) : Option AST := parseRP s.toList

/-! ## The infix printer of `reverse.cpp` -/

/-- The `to_string` methods of the five `AST` subclasses.  For a
`BinaryOperatorAST`, an operand that is itself a `BinaryOperatorAST` of
strictly lower precedence is parenthesised; afterwards, for `/` and `-`
only, a right operand carrying the same operator symbol is
parenthesised ("Division and subtraction aren't associative"). -/
def render : AST → String
  | .var n => n
  | .int v => toString v
  | .func fn a => fn ++ "(" ++ render a ++ ")"
  | .neg a =>
    match a with
    | .binop _ _ _ => "-(" ++ render a ++ ")"
    | _ => "-" ++ render a
  | .binop op l r =>
    let ls0 := render l
    let rs0 := render r
    let ls1 :=
      match l with
      | .binop lop _ _ =>
        if evalPrecedence lop < evalPrecedence op then "(" ++ ls0 ++ ")" else ls0
      | _ => ls0
    let rs1 :=
      match r with
      | .binop rop _ _ =>
        if evalPrecedence rop < evalPrecedence op then "(" ++ rs0 ++ ")" else rs0
      | _ => rs0
    let rs2 :=
      if op = '/' ∨ op = '-' then
        match r with
        | .binop rop _ _ => if rop = op then "(" ++ rs1 ++ ")" else rs1
        | _ => rs1
      else rs1
    ls1 ++ " " ++ String.singleton op ++ " " ++ rs2

/-- `infix_from_reverse_polish`: parse, simplify, render. -/
def renderReversePolish (s : String) : Option String :=
  (parseRPStr s).map (fun t => render (simplify t))

/-! ## Claim-side definitions

These restate conditions in the words of the specification, to be
compared with the behaviour of the embedded source functions. -/

/-- Is the node an `IntAST` (an integer leaf)? -/
def isIntNode : AST → Bool
  | .int _ => true
  | _ => false

/-- Wrap a rendered operand in parentheses when the flag holds. -/
def wrapIf (b : Bool) (s : String) : String :=
  if b then "(" ++ s ++ ")" else s

/-- The specification's condition for parenthesising the left operand
of `BinOp(op, l, r)`: `l` is itself a `BinOp` of strictly lower
precedence. -/
def specWrapL (op : Char) (l : AST) : Bool :=
  match l with
  | .binop lop _ _ => decide (evalPrecedence lop < evalPrecedence op)
  | _ => false

/-- The specification's condition for parenthesising the right operand
of `BinOp(op, l, r)`: `r` is itself a `BinOp` of strictly lower
precedence, or `op` is `/` or `-` and `r` carries the same operator
symbol. -/
def specWrapR (op : Char) (r : AST) : Bool :=
  match r with
  | .binop rop _ _ =>
    decide (evalPrecedence rop < evalPrecedence op) ||
      (decide (op = '/' ∨ op = '-') && decide (rop = op))
  | _ => false

/-! ## The PRNG of `integrator.h` (`CustomGenerator`)

The state is a `uint32_t`, embedded as a `Nat` below `2^32`; but
`CustomGenerator::result_type` is `int`, so `operator()` hands the new
state to callers converted to a *signed* 32-bit value. -/

/-- `CustomGenerator::xorshift32`: the Marsaglia shifts 13, 17, 5
(left, right, left) on the 32-bit state; the new state is returned. -/
def xorshift32 (s : Nat) : Nat :=
  let a := (s ^^^ (s <<< 13)) % 2 ^ 32
  let b := a ^^^ (a >>> 17)
  (b ^^^ (b <<< 5)) % 2 ^ 32

/-- Two's-complement reinterpretation of a 32-bit value as a C++ `int`
(the conversion performed by `result_type operator()`). -/
def int32ofUInt32 (v : Nat) : Int :=
  if v < 2 ^ 31 then (v : Int) else (v : Int) - 2 ^ 32

/-- `CustomGenerator::operator()`: advance the state by `xorshift32`
and return the new state, converted to `int`.  Result: (returned value,
new stored state). -/
def rngNext (s : Nat) : Int × Nat :=
  let s' := xorshift32 s
  (int32ofUInt32 s', s')

/-! ## The random postfix generator (`Composer`) -/

/-- `integrator::nullary_pool`. -/
def nullaryPool : List Char := ['1', 'x']

/-- `integrator::unary_pool`. -/
def unaryPool : List Char := ['\\', '~', '>', '<', 'C', 'S', '2', 'R', 'L', 'H']

/-- `integrator::binary_pool`. -/
def binaryPool : List Char := ['+', '-', '/', '*']

/-- `Composer::draw_random_symbol`: `arr[rng() % arr.size()]`.  The
`int` returned by `rng()` is converted to the unsigned 64-bit
`size_t` (reduction modulo `2^64`, i.e. `Int.emod`) before the `%`
against the pool size. -/
def drawSymbol (pool : List Char) (st : Nat) : Char × Nat :=
  let p := rngNext st
  (pool.getD ((p.1.emod (2 ^ 64)).toNat % pool.length) ' ', p.2)

/-- The `for (int i = 0; i < len; ++i)` loop of
`Composer::gen_random_expr`, with `rem` the number of iterations left
(`rem = 0` inside the body marks `i == len - 1`).  Each iteration draws
`choice = rng() % roof` — a *signed* truncated remainder, so a negative
`rng()` yields `choice ∈ {-2, -1}`, which matches no `switch` case and
appends nothing.  On the last iteration `choice` is overridden to `1`
(unary) if the virtual stack size is 1 and to `2` (binary) otherwise.
Result: (emitted symbols, final virtual stack size, rng state). -/
def genLoop : Nat → Nat → Int → List Char → List Char × Int × Nat
  | 0, st, stk, acc => (acc, stk, st)
  | rem + 1, st, stk, acc =>
    let roof : Int := if 2 ≤ stk then 3 else stk + 1
    let p := rngNext st
    let c : Int := if rem = 0 then (if stk = 1 then 1 else 2) else Int.tmod p.1 roof
    if c = 0 then
      let q := drawSymbol nullaryPool p.2
      genLoop rem q.2 (stk + 1) (acc ++ [q.1])
    else if c = 1 then
      let q := drawSymbol unaryPool p.2
      genLoop rem q.2 stk (acc ++ [q.1])
    else if c = 2 then
      let q := drawSymbol binaryPool p.2
      genLoop rem q.2 (stk - 1) (acc ++ [q.1])
    else
      genLoop rem p.2 stk acc

/-- The trailing `while (stack_size > 1)` loop of
`Composer::gen_random_expr`: append `stack_size - 1` random binary
symbols. -/
def genTrailing : Nat → Nat → List Char → List Char × Nat
  | 0, st, acc => (acc, st)
  | k + 1, st, acc =>
    let q := drawSymbol binaryPool st
    genTrailing k q.2 (acc ++ [q.1])

/-- `Composer::gen_random_expr(len)`.  `len` is a C++ `int` and may be
negative (then the loop body never runs). -/
def genRandomExpr (st : Nat) (len : Int) : List Char × Nat :=
  let r := genLoop len.toNat st 0 []
  genTrailing (r.2.1 - 1).toNat r.2.2 r.1

/-- `Composer::compose(tentative_len)`: draw
`len = (rng() % tentative_len) + 2` — `int` arithmetic, so a negative
draw makes `len ≤ 1` — then generate.  Only the postfix string and the
final rng state are retained here; `compile` is embedded separately. -/
def compose (st : Nat) (L : Int) : List Char × Nat :=
  let p := rngNext st
  genRandomExpr p.2 (Int.tmod p.1 L + 2)

/-- The postfix string produced by `Composer::compose(L)` from rng
state `st`. -/
def composeStr (st : Nat) (L : Int) : List Char := (compose st L).1

/-! ## The compiler and stack evaluator (`Composer`)

One constructor per `Composer` member function bound by
`operator_dict`.  Operand values (IEEE-754 doubles in the source) are
embedded as real numbers; all theorems below about the evaluator
concern the stack discipline only and hold independently of the
numeric semantics of the operations. -/

inductive Op : Type where
  | x | zero | one
  | invert | invertSign | increment | decrement
  | sin | cos | tan | square | root | log | halve
  | add | subtract | multiply | divide
deriving DecidableEq, Repr

/-- `Composer::operator_dict`; the `assert(false)` branch for an
unknown symbol is embedded as `none`. -/
def operatorDict : Char → Option Op
  | 'x' => some .x
  | '0' => some .zero
  | '1' => some .one
  | '\\' => some .invert
  | '~' => some .invertSign
  | '>' => some .increment
  | '<' => some .decrement
  | 'S' => some .sin
  | 'C' => some .cos
  | 'T' => some .tan
  | '2' => some .square
  | 'R' => some .root
  | 'L' => some .log
  | 'H' => some .halve
  | '+' => some .add
  | '-' => some .subtract
  | '*' => some .multiply
  | '/' => some .divide
  | _ => none

/-- `Composer::compile`: map each character through `operator_dict`. -/
def compileProg : List Char → Option (List Op)
  | [] => some []
  | c :: rest =>
    match operatorDict c, compileProg rest with
    | some o, some os => some (o :: os)
    | _, _ => none

/-- Does the member function push a new operand (`x`, `zero`, `one`)? -/
def opPushes : Op → Bool
  | .x | .zero | .one => true
  | _ => false

/-- Is the member function one of the four binary operations? -/
def opIsBinary : Op → Bool
  | .add | .subtract | .multiply | .divide => true
  | _ => false

/-- `Composer::apply_unary`: mutate the top of the stack in place (the
stack is a list with its top — `back()` — at the head).  `back()` on an
empty container is undefined behaviour, embedded as `none`. -/
def unStep (f : ℝ → ℝ) : List ℝ → Option (List ℝ)
  | [] => none
  | v :: rest => some (f v :: rest)

/-- `Composer::apply_binary`: pop `back` into `b`, then apply
`f(stack.back(), b)` in place on the new top. -/
def binStep (f : ℝ → ℝ → ℝ) : List ℝ → Option (List ℝ)
  | b :: v :: rest => some (f v b :: rest)
  | _ => none

/-- `push_back` on the `boost::circular_buffer<double>` of capacity
`expr_max_size = 64`: when the buffer is full the oldest element (the
bottom of the stack, i.e. the last element of the list) is silently
overwritten. -/
def cbPush (v : ℝ) (s : List ℝ) : List ℝ :=
  if 64 ≤ s.length then v :: s.dropLast else v :: s

/-- One member-function call on the `Composer`'s circular-buffer
operand stack, for variable value `xv`. -/
noncomputable def applyCB (o : Op) (xv : ℝ) (s : List ℝ) : Option (List ℝ) :=
  match o with
  | .x => some (cbPush xv s)
  | .zero => some (cbPush 0 s)
  | .one => some (cbPush 1 s)
  | .invert => unStep (fun v => 1 / v) s
  | .invertSign => unStep (fun v => v * (-1)) s
  | .increment => unStep (fun v => v + 1) s
  | .decrement => unStep (fun v => v - 1) s
  | .sin => unStep Real.sin s
  | .cos => unStep Real.cos s
  | .tan => unStep Real.tan s
  | .square => unStep (fun v => v * v) s
  | .root => unStep Real.sqrt s
  | .log => unStep Real.log s
  | .halve => unStep (fun v => v / 2) s
  | .add => binStep (fun a b => a + b) s
  | .subtract => binStep (fun a b => a - b) s
  | .multiply => binStep (fun a b => a * b) s
  | .divide => binStep (fun a b => a / b) s

/-- The same member-function call on an ideal unbounded stack: the
reference semantics of the symbol sequence ("executed from an empty
operand stack" in the claims), differing from `applyCB` only in that a
push never drops the bottom element. -/
noncomputable def applyAbs (o : Op) (xv : ℝ) (s : List ℝ) : Option (List ℝ) :=
  match o with
  | .x => some (xv :: s)
  | .zero => some ((0 : ℝ) :: s)
  | .one => some ((1 : ℝ) :: s)
  | _ => applyCB o xv s

/-- Run a compiled program on the circular-buffer stack (the loop of
the private `Composer::eval`). -/
noncomputable def runCB : List Op → ℝ → List ℝ → Option (List ℝ)
  | [], _, s => some s
  | o :: rest, xv, s =>
    match applyCB o xv s with
    | some s' => runCB rest xv s'
    | none => none

/-- Run a compiled program on the ideal unbounded stack. -/
noncomputable def runAbs : List Op → ℝ → List ℝ → Option (List ℝ)
  | [], _, s => some s
  | o :: rest, xv, s =>
    match applyAbs o xv s with
    | some s' => runAbs rest xv s'
    | none => none

/-- `Composer::eval(compiled_expr, x)` started from operand stack `s`
(the stack is a member of `Composer` and persists across calls): run
the program, then `ret = stack.back(); stack.pop_back(); return ret`.
Result: the returned value and the stack left in the `Composer`. -/
noncomputable def evalMember (P : List Op) (xv : ℝ) (s : List ℝ) :
    Option (ℝ × List ℝ) :=
  match runCB P xv s with
  | some (v :: rest) => some (v, rest)
  | _ => none

/-- Effect of one member function on the operand-stack depth `d`:
a push increments, a binary operation requires depth ≥ 2 and
decrements, a unary operation requires depth ≥ 1 and keeps it;
`none` marks a read or pop below the bottom of the stack. -/
def depthStep (o : Op) (d : Nat) : Option Nat :=
  if opPushes o then some (d + 1)
  else if opIsBinary o then (if 2 ≤ d then some (d - 1) else none)
  else (if 1 ≤ d then some d else none)

/-- Stack-depth simulation of a symbol sequence from depth `d`:
`none` if some operation pops (or reads) below the bottom, otherwise
`some (final depth, maximum depth reached, start included)`. -/
def depthSim : List Op → Nat → Option (Nat × Nat)
  | [], d => some (d, d)
  | o :: rest, d =>
    match depthStep o d with
    | some d' =>
      match depthSim rest d' with
      | some fm => some (fm.1, max d fm.2)
      | none => none
    | none => none

/-! ## Lemmas about the simplifier -/

lemma astSize_pos (t : AST) : 1 ≤ astSize t := by
  cases t <;> simp [astSize] <;> omega

/-- Every successful rewrite of `visit` strictly reduces node count. -/
lemma visit_size_lt (n n' : AST) (h : visit n = some n') :
    astSize n' < astSize n := by
  cases n with
  | int v => simp [visit] at h
  | var s => simp [visit] at h
  | func fn a => simp [visit] at h
  | neg a =>
    cases a with
    | int v =>
      simp [visit] at h
      subst h; simp [astSize]
    | neg b =>
      simp [visit] at h
      subst h; simp [astSize]; omega
    | var s => simp [visit] at h
    | func fn b => simp [visit] at h
    | binop op l r => simp [visit] at h
  | binop op l r =>
    have hl := astSize_pos l
    have hr := astSize_pos r
    cases l <;> cases r <;> simp [visit] at h <;> (try split_ifs at h) <;>
      first
        | (subst h; simp only [astSize]; omega)
        | (obtain ⟨h1, rfl⟩ := h; simp only [astSize]; omega)
        | (simp only [Option.some.injEq] at h; subst h; simp only [astSize]; omega)
        | (simp at h)

/-- A pass that reports no modification leaves the tree unchanged. -/
lemma simplifyPass_false_eq (t : AST) (h : (simplifyPass t).2 = false) :
    (simplifyPass t).1 = t := by
  induction t with
  | int v => simp [simplifyPass, visit]
  | var s => simp [simplifyPass, visit]
  | func fn a ih =>
    simp only [simplifyPass] at h ⊢
    cases hv : visit (AST.func fn (simplifyPass a).1) with
    | some n' => simp [hv] at h
    | none =>
      simp [hv] at h ⊢
      rw [ih h]
  | binop op l r ihl ihr =>
    simp only [simplifyPass] at h ⊢
    cases hv : visit (AST.binop op (simplifyPass l).1 (simplifyPass r).1) with
    | some n' => simp [hv] at h
    | none =>
      simp [hv] at h ⊢
      exact ⟨ihl h.1, ihr h.2⟩
  | neg a ih =>
    simp only [simplifyPass] at h ⊢
    cases hv : visit (AST.neg a) with
    | some n' => simp [hv] at h
    | none => simp [hv]

/-- A pass never increases node count. -/
lemma simplifyPass_size_le (t : AST) :
    astSize (simplifyPass t).1 ≤ astSize t := by
  induction t with
  | int v => simp [simplifyPass, visit, astSize]
  | var s => simp [simplifyPass, visit, astSize]
  | func fn a ih =>
    simp only [simplifyPass]
    cases hv : visit (AST.func fn (simplifyPass a).1) with
    | some n' =>
      have := visit_size_lt _ _ hv
      simp only [astSize] at this ⊢
      omega
    | none =>
      simp only [astSize]
      omega
  | binop op l r ihl ihr =>
    simp only [simplifyPass]
    cases hv : visit (AST.binop op (simplifyPass l).1 (simplifyPass r).1) with
    | some n' =>
      have := visit_size_lt _ _ hv
      simp only [astSize] at this ⊢
      omega
    | none =>
      simp only [astSize]
      omega
  | neg a ih =>
    simp only [simplifyPass]
    cases hv : visit (AST.neg a) with
    | some n' =>
      have := visit_size_lt _ _ hv
      simp only [astSize] at this ⊢
      omega
    | none => simp [astSize]

/-- A pass that reports a modification strictly reduces node count. -/
lemma simplifyPass_true_lt (t : AST) (h : (simplifyPass t).2 = true) :
    astSize (simplifyPass t).1 < astSize t := by
  induction t with
  | int v => simp [simplifyPass, visit] at h
  | var s => simp [simplifyPass, visit] at h
  | func fn a ih =>
    have hle := simplifyPass_size_le a
    simp only [simplifyPass] at h ⊢
    cases hv : visit (AST.func fn (simplifyPass a).1) with
    | some n' =>
      have := visit_size_lt _ _ hv
      simp only [astSize] at this ⊢
      omega
    | none =>
      simp only [hv] at h ⊢
      have := ih h
      simp only [astSize]
      omega
  | binop op l r ihl ihr =>
    have hll := simplifyPass_size_le l
    have hrl := simplifyPass_size_le r
    simp only [simplifyPass] at h ⊢
    cases hv : visit (AST.binop op (simplifyPass l).1 (simplifyPass r).1) with
    | some n' =>
      have := visit_size_lt _ _ hv
      simp only [astSize] at this ⊢
      omega
    | none =>
      simp only [hv] at h ⊢
      simp only [Bool.or_eq_true] at h
      simp only [astSize]
      rcases h with h | h
      · have := ihl h
        omega
      · have := ihr h
        omega
  | neg a ih =>
    simp only [simplifyPass] at h ⊢
    cases hv : visit (AST.neg a) with
    | some n' =>
      have := visit_size_lt _ _ hv
      simpa using this
    | none => simp [hv] at h

/-- The fuel-bounded iteration never increases node count. -/
lemma simplifyFuel_size_le (fuel : Nat) (t : AST) :
    astSize (simplifyFuel fuel t) ≤ astSize t := by
  induction fuel generalizing t with
  | zero => simp [simplifyFuel]
  | succ fuel ih =>
    simp only [simplifyFuel]
    by_cases hm : (simplifyPass t).2 = true
    · simp only [hm, if_true]
      exact le_trans (ih _) (le_of_lt (simplifyPass_true_lt t hm))
    · simp only [hm]
      simp only [Bool.not_eq_true] at hm
      simp [hm, simplifyPass_size_le t]

/-- With fuel at least the node count, the iteration reaches the exit
condition of the C++ `do {} while` loop: one more pass would report no
modification (and hence leave the result unchanged). -/
lemma simplifyFuel_fix (fuel : Nat) (t : AST) (hf : astSize t ≤ fuel) :
    simplifyPass (simplifyFuel fuel t) = (simplifyFuel fuel t, false) := by
  induction fuel generalizing t with
  | zero =>
    have := astSize_pos t
    omega
  | succ fuel ih =>
    simp only [simplifyFuel]
    by_cases hm : (simplifyPass t).2 = true
    · simp only [hm, if_true]
      have hlt := simplifyPass_true_lt t hm
      exact ih _ (by omega)
    · simp only [Bool.not_eq_true] at hm
      simp only [hm, Bool.false_eq_true, if_false]
      have he := simplifyPass_false_eq t hm
      calc simplifyPass (simplifyPass t).1 = simplifyPass t := by rw [he]
        _ = ((simplifyPass t).1, false) := by
            rw [← hm]

/-- A tree on which a pass reports no modification is left unchanged by
`simplifyFuel` for any amount of fuel. -/
lemma simplifyFuel_of_fix (fuel : Nat) (t : AST)
    (h : simplifyPass t = (t, false)) : simplifyFuel fuel t = t := by
  cases fuel with
  | zero => simp [simplifyFuel]
  | succ fuel => simp [simplifyFuel, h]

/-- `simplify` reaches a fixed point of the pass. -/
lemma simplify_reaches_fixpoint (t : AST) :
    simplifyPass (simplify t) = (simplify t, false) :=
  simplifyFuel_fix (astSize t) t le_rfl

/-! ## Lemmas about the postfix generator -/

lemma genTrailing_length (k : Nat) :
    ∀ (st : Nat) (acc : List Char),
      ((genTrailing k st acc).1).length = acc.length + k := by
  induction k with
  | zero => intro st acc; simp [genTrailing]
  | succ k ih =>
    intro st acc
    simp only [genTrailing]
    rw [ih]
    simp
    omega

lemma genLoop_length_le (rem : Nat) :
    ∀ (st : Nat) (stk : Int) (acc : List Char),
      ((genLoop rem st stk acc).1).length ≤ acc.length + rem := by
  induction rem with
  | zero => intro st stk acc; simp [genLoop]
  | succ rem ih =>
    intro st stk acc
    simp only [genLoop]
    split_ifs <;>
      first
        | (refine le_trans (ih _ _ _) ?_; simp; omega)
        | (refine le_trans (ih _ _ _) ?_; omega)

lemma genLoop_stk_le (rem : Nat) :
    ∀ (st : Nat) (stk : Int) (acc : List Char), 1 ≤ rem →
      (genLoop rem st stk acc).2.1 ≤ max 1 (stk + rem - 2) := by
  induction rem with
  | zero => intro st stk acc h; omega
  | succ rem ih =>
    intro st stk acc _
    simp only [genLoop]
    by_cases hlast : rem = 0
    · subst hlast
      split_ifs <;> simp [genLoop] <;> omega
    · have hrem : 1 ≤ rem := Nat.one_le_iff_ne_zero.mpr hlast
      split_ifs <;>
        first
          | (refine le_trans (ih _ _ _ hrem) ?_; push_cast; omega)
          | omega

lemma genRandomExpr_length_le (st : Nat) (len : Int) :
    ((genRandomExpr st len).1).length ≤ max 2 (2 * len.toNat - 3) := by
  unfold genRandomExpr
  rcases Nat.eq_zero_or_pos len.toNat with h0 | hpos
  · rw [h0]
    simp [genLoop, genTrailing]
  · have hlen := genLoop_length_le len.toNat st 0 []
    have hstk := genLoop_stk_le len.toNat st 0 [] hpos
    rw [genTrailing_length]
    simp only [List.length_nil, Nat.zero_add] at hlen
    omega

lemma composeStr_length_le (st : Nat) (L : Int) (hL : 1 ≤ L) :
    (composeStr st L).length ≤ max 2 (2 * L.toNat - 1) := by
  simp only [composeStr, compose]
  have hmod := Int.tmod_lt_of_pos (rngNext st).1 (show (0 : Int) < L by omega)
  have hb := genRandomExpr_length_le (rngNext st).2 (Int.tmod (rngNext st).1 L + 2)
  have hn : (Int.tmod (rngNext st).1 L + 2).toNat ≤ L.toNat + 1 := by omega
  omega

/-! ## Lemmas about the evaluator -/

lemma depthSim_ge_start (P : List Op) :
    ∀ (d fin m : Nat), depthSim P d = some (fin, m) → d ≤ m := by
  induction P with
  | nil => intro d fin m h; simp [depthSim] at h; omega
  | cons o rest ih =>
    intro d fin m h
    simp only [depthSim] at h
    split at h
    · split at h
      · simp at h
        omega
      · simp at h
    · simp at h

lemma depthStep_push_inv (o : Op) (ho : opPushes o = true) (d d' : Nat)
    (h : depthStep o d = some d') : d' = d + 1 := by
  simp [depthStep, ho] at h
  omega

lemma depthStep_unary_inv (o : Op) (h1 : opPushes o = false)
    (h2 : opIsBinary o = false) (d d' : Nat)
    (h : depthStep o d = some d') : 1 ≤ d ∧ d' = d := by
  simp [depthStep, h1, h2] at h
  exact ⟨h.1, h.2.symm⟩

lemma depthStep_binary_inv (o : Op) (h1 : opPushes o = false)
    (h2 : opIsBinary o = true) (d d' : Nat)
    (h : depthStep o d = some d') : 2 ≤ d ∧ d' = d - 1 := by
  simp [depthStep, h1, h2] at h
  exact ⟨h.1, h.2.symm⟩

lemma depthSim_cons (o : Op) (rest : List Op) (d fin m : Nat)
    (h : depthSim (o :: rest) d = some (fin, m)) :
    ∃ d' fin2 m2, depthStep o d = some d' ∧
      depthSim rest d' = some (fin2, m2) ∧ fin = fin2 ∧ m2 ≤ m ∧ d ≤ m := by
  simp only [depthSim] at h
  cases hs : depthStep o d with
  | none => rw [hs] at h; simp at h
  | some d' =>
    simp only [hs] at h
    cases hr : depthSim rest d' with
    | none => simp only [hr] at h; simp at h
    | some fm =>
      simp only [hr] at h
      simp only [Option.some.injEq, Prod.mk.injEq] at h
      refine ⟨d', fm.1, fm.2, rfl, by simpa using hr, h.1.symm, ?_, ?_⟩ <;>
        rw [← h.2] <;> omega

/-- As long as the maximum stack depth stays within the capacity 64,
the circular-buffer stack behaves exactly like the ideal unbounded
stack. -/
lemma runCB_eq_runAbs (P : List Op) :
    ∀ (xv : ℝ) (s : List ℝ) (fin m : Nat),
      depthSim P s.length = some (fin, m) → m ≤ 64 →
      runCB P xv s = runAbs P xv s := by
  induction P with
  | nil => intro xv s fin m _ _; rfl
  | cons o rest ih =>
    intro xv s fin m hd hm
    obtain ⟨d', fin2, m2, hstep, hrest, hfin, hm2, hdm⟩ :=
      depthSim_cons o rest s.length fin m hd
    cases o <;>
      first
      | -- push ops
        (obtain rfl := depthStep_push_inv _ (by rfl) _ _ hstep
         have hge := depthSim_ge_start rest (s.length + 1) fin2 m2 hrest
         have hlen : ¬ 64 ≤ s.length := by omega
         simp only [runCB, runAbs, applyCB, applyAbs, cbPush, if_neg hlen]
         exact ih xv _ fin2 m2 (by simpa using hrest) (by omega))
      | -- unary ops
        (obtain ⟨hd1, rfl⟩ := depthStep_unary_inv _ (by rfl) (by rfl) _ _ hstep
         cases s with
         | nil => simp at hd1
         | cons v tail =>
           simp only [runCB, runAbs, applyCB, applyAbs, unStep]
           exact ih xv _ fin2 m2 (by simpa using hrest) (by omega))
      | -- binary ops
        (obtain ⟨hd2, rfl⟩ := depthStep_binary_inv _ (by rfl) (by rfl) _ _ hstep
         cases s with
         | nil => simp at hd2
         | cons b tail =>
           cases tail with
           | nil => simp at hd2
           | cons v tail2 =>
             simp only [runCB, runAbs, applyCB, applyAbs, binStep]
             refine ih xv _ fin2 m2 ?_ (by omega)
             simpa using hrest)

/-! ## Claims -/

/-- C1: the claim states that `BinOp('/', Int a, Int b)` with
`a mod b ≠ 0` is left unchanged by the constant-folding rule.  The
source's `case '/'` has no `break`: for `a = 3`, `b = 2` control falls
through into `case '^'` and the node is rewritten to
`Int((int)pow(3, 2)) = Int 9` instead of being left as `3 / 2`. -/
theorem c1_div_fold_falls_through_to_pow :
    visit (AST.binop '/' (AST.int 3) (AST.int 2)) = some (AST.int 9) := by
  decide

/-- C2 (counterexample): the claim states that `"x\"` prints as
`"1 / x"` after simplification; in fact the "integer 1 identity" rule
collapses `BinOp('/', Int 1, Var x)` to `Var x`, so the printed string
is `"x"`. -/
theorem c2_counterexample :
    ¬ renderReversePolish "x\\" = some "1 / x" := by
  decide

/-- C2 (amended): `"x\"` parses to `BinOp('/', Int 1, Var x)` exactly
as claimed, but after simplification (which collapses `1 / x` to `x`
by the indiscriminate integer-1 identity rule) the printed infix
string is `"x"`. -/
theorem c2_amended_parse_and_print :
    parseRPStr "x\\" = some (AST.binop '/' (AST.int 1) (AST.var "x")) ∧
      renderReversePolish "x\\" = some "x" := by
  exact ⟨by decide, by decide⟩

/-- C3: for any operator symbol among `+ - * / ^`, a `BinOp` one of
whose operands is `Int 1` and whose operands are not both integer
leaves (in which case the constant fold would fire first) is rewritten
by one `visit` step to the other operand; in particular `simplify`
turns `BinOp('-', Var x, Int 1)` into `Var x` and
`BinOp('/', Int 1, Var x)` into `Var x`. -/
theorem c3_int_one_identity_any_op :
    (∀ (op : Char) (l r : AST), op ∈ (['+', '-', '*', '/', '^'] : List Char) →
      (l = AST.int 1 ∨ r = AST.int 1) →
      ¬(isIntNode l = true ∧ isIntNode r = true) →
      visit (AST.binop op l r) = some (if l = AST.int 1 then r else l)) ∧
    simplify (AST.binop '-' (AST.var "x") (AST.int 1)) = AST.var "x" ∧
    simplify (AST.binop '/' (AST.int 1) (AST.var "x")) = AST.var "x" := by
  refine ⟨?_, by decide, by decide⟩
  intro op l r _ h1 h2
  cases l <;> cases r <;> simp_all [visit, isIntNode]

/-- C3 (witness): the theorem applied to `BinOp('-', Var x, Int 1)`. -/
theorem c3_witness :
    visit (AST.binop '-' (AST.var "x") (AST.int 1)) =
      some (if AST.var "x" = AST.int 1 then AST.int 1 else AST.var "x") :=
  c3_int_one_identity_any_op.1 '-' (AST.var "x") (AST.int 1) (by decide)
    (Or.inr rfl) (by decide)

/-- C4: the claim states that for every nonzero seed and tentative
length `L ≥ 1` the generated string is nonempty, parser-accepted with
final stack size 1, and evaluates safely.  With seed `2^26 = 67108864`
and `L = 20`, the first PRNG output is `2214609408`, which
`operator()` (whose `result_type` is `int`) returns as `-2080357888`;
`(rng() % 20) + 2 = -6`, so `gen_random_expr` runs zero iterations and
`compose` returns the empty string, which the parser rejects (final
stack size 0) and on which `eval`'s final `stack.back()` pops an empty
stack. -/
theorem c4_negative_length_empty_string :
    composeStr 67108864 20 = [] ∧ parseRP [] = none ∧
      evalMember [] 0 [] = none := by
  exact ⟨by decide, by decide, rfl⟩

/-- C5 (counterexample): the claim bounds the length of `compose(L)`'s
string by `L + 1`.  From rng state 52 with `L = 3` the generator draws
`len = 4`, pushes three operands, is forced to a binary on the last
step and then appends one trailing binary: 5 symbols, exceeding
`L + 1 = 4`. -/
theorem c5_counterexample :
    composeStr 52 3 = ['1', 'x', '1', '*', '+'] ∧
      ¬ (composeStr 52 3).length ≤ 3 + 1 := by
  exact ⟨by decide, by decide⟩

/-- C5 (amended): for every rng state and tentative length `L ≥ 1` the
string returned by `compose(L)` has length at most
`max 2 (2·L − 1)` (the drawn length is at most `L + 1` and at most
`len − 3` trailing binary symbols are appended); the claimed lower
bound 2 does not hold in general — when the signed draw makes
`len ≤ 1` the string has 0 or 1 symbols (see C4). -/
theorem c5_amended_length_bounds :
    ∀ (st : Nat) (L : Int), st < 2 ^ 32 → 1 ≤ L →
      (composeStr st L).length ≤ max 2 (2 * L.toNat - 1) := by
  intro st L _ hL
  exact composeStr_length_le st L hL

/-- C5 (witness): the amended bound at state 1, `L = 1`. -/
theorem c5_witness :
    (composeStr 1 1).length ≤ max 2 (2 * (1 : Int).toNat - 1) :=
  c5_amended_length_bounds 1 1 (by decide) (by decide)

/-- C6: every successful `visit` rewrite strictly reduces the node
count; consequently the fixed-point iteration of `simplify` terminates
— witnessed by the third conjunct: one further pass on `simplify t`
reports no modification, which is the exit condition of the C++
`do {} while` loop — and the node count of `simplify t` never exceeds
that of `t`. -/
theorem c6_rewrites_strictly_reduce :
    (∀ (n n' : AST), visit n = some n' → astSize n' < astSize n) ∧
    (∀ t : AST, astSize (simplify t) ≤ astSize t) ∧
    (∀ t : AST, simplifyPass (simplify t) = (simplify t, false)) :=
  ⟨visit_size_lt, fun t => simplifyFuel_size_le (astSize t) t,
    simplify_reaches_fixpoint⟩

/-- C6 (witness): the theorem applied to the rewrite
`Neg(Int 1) → Int (-1)`. -/
theorem c6_witness :
    astSize (AST.int (-1)) < astSize (AST.neg (AST.int 1)) ∧
      astSize (simplify (AST.neg (AST.int 1))) ≤ astSize (AST.neg (AST.int 1)) :=
  ⟨c6_rewrites_strictly_reduce.1 _ _ (by rfl),
    c6_rewrites_strictly_reduce.2.1 _⟩

/-- C7: `simplify` is idempotent: it iterates passes until a pass
makes no change, so its result is a fixed point of the pass and a
second run of `simplify` returns it unchanged. -/
theorem c7_simplify_idempotent (t : AST) :
    simplify (simplify t) = simplify t := by
  have hfix := simplify_reaches_fixpoint t
  calc simplify (simplify t)
      = simplifyFuel (astSize (simplify t)) (simplify t) := rfl
    _ = simplify t := simplifyFuel_of_fix _ _ hfix

/-- C7 (witness): idempotence at `Neg(Int 1)`. -/
theorem c7_witness :
    simplify (simplify (AST.neg (AST.int 1))) = simplify (AST.neg (AST.int 1)) :=
  c7_simplify_idempotent _

/-- C8: the infix printer parenthesises an operand of
`BinOp(op, l, r)` exactly when it is a `BinOp` of strictly lower
precedence (`+,- ↦ 50`, `*,/ ↦ 60`, `^ ↦ 70`), or — right operand
only — when `op ∈ {/, -}` and the right operand carries the same
operator symbol; and the tree parsed from `"xx+x*"` prints as
`"(x + x) * x"`. -/
theorem c8_parenthesization :
    (evalPrecedence '+' = 50 ∧ evalPrecedence '-' = 50 ∧
      evalPrecedence '*' = 60 ∧ evalPrecedence '/' = 60 ∧
      evalPrecedence '^' = 70) ∧
    (∀ (op : Char) (l r : AST), op ∈ (['+', '-', '*', '/', '^'] : List Char) →
      render (AST.binop op l r) =
        wrapIf (specWrapL op l) (render l) ++ " " ++ String.singleton op ++
          " " ++ wrapIf (specWrapR op r) (render r)) ∧
    parseRPStr "xx+x*" =
      some (AST.binop '*' (AST.binop '+' (AST.var "x") (AST.var "x"))
        (AST.var "x")) ∧
    render (AST.binop '*' (AST.binop '+' (AST.var "x") (AST.var "x"))
        (AST.var "x")) = "(x + x) * x" := by
  refine ⟨by decide, ?_, by decide, by decide⟩
  intro op l r _
  have hL : (match l with
      | .binop lop _ _ =>
        if evalPrecedence lop < evalPrecedence op then "(" ++ render l ++ ")"
        else render l
      | _ => render l) = wrapIf (specWrapL op l) (render l) := by
    cases l <;> simp [wrapIf, specWrapL]
  have hR : (let rs1 :=
      match r with
      | .binop rop _ _ =>
        if evalPrecedence rop < evalPrecedence op then "(" ++ render r ++ ")"
        else render r
      | _ => render r
    if op = '/' ∨ op = '-' then
      match r with
      | .binop rop _ _ => if rop = op then "(" ++ rs1 ++ ")" else rs1
      | _ => rs1
    else rs1) = wrapIf (specWrapR op r) (render r) := by
    cases r with
    | binop rop a b =>
      simp only []
      rcases eq_or_ne rop op with heq | hne
      · have hnp : ¬ evalPrecedence rop < evalPrecedence op := by
          rw [heq]
          exact lt_irrefl _
        by_cases hs : op = '/' ∨ op = '-' <;>
          simp [wrapIf, specWrapR, hnp, hs, heq]
      · by_cases hp : evalPrecedence rop < evalPrecedence op <;>
          by_cases hs : op = '/' ∨ op = '-' <;>
          simp [wrapIf, specWrapR, hp, hs, hne]
    | int v => simp [wrapIf, specWrapR]
    | var n => simp [wrapIf, specWrapR]
    | func fn a => simp [wrapIf, specWrapR]
    | neg a => simp [wrapIf, specWrapR]
  simp only [render]
  rw [hL, hR]

/-- C8 (witness): the characterization applied to the `"xx+x*"` tree. -/
theorem c8_witness :
    render (AST.binop '*' (AST.binop '+' (AST.var "x") (AST.var "x"))
        (AST.var "x")) =
      wrapIf (specWrapL '*' (AST.binop '+' (AST.var "x") (AST.var "x")))
          (render (AST.binop '+' (AST.var "x") (AST.var "x"))) ++ " " ++
        String.singleton '*' ++ " " ++
        wrapIf (specWrapR '*' (AST.var "x")) (render (AST.var "x")) :=
  c8_parenthesization.2.1 '*' _ _ (by decide)

/-- C9: the claim states the xorshift state transform (confirmed: the
new state is `xorshift32` of the old one and is stored back) and that
every returned value lies in `[0, 2^32 − 1]`.  `result_type` is `int`,
so `operator()` converts the 32-bit state to a signed value:
from state `2^26` the next state is `2214609408` but the returned
`int` is `-2080357888 < 0`, outside the claimed range (and below the
generator's own declared `min() = 0`). -/
theorem c9_prng_returns_negative :
    rngNext 67108864 = (-2080357888, 2214609408) ∧
    (rngNext 67108864).2 = xorshift32 67108864 ∧
    xorshift32 67108864 < 2 ^ 32 ∧
    (rngNext 67108864).1 < 0 := by
  exact ⟨by decide, rfl, by decide, by decide⟩

/-- C10 (counterexample): the claim asserts that any program whose
symbol sequence runs from an empty stack without popping empty and
ends with exactly one operand is evaluated by `eval` to that operand,
leaving the stack empty.  The program of 65 pushes of `1` followed by
64 additions satisfies the hypothesis (`depthSim` final depth 1, no
underflow) but reaches depth 65: the 65th push overwrites the bottom
of the capacity-64 circular buffer, and the 64th addition then reads
below an empty stack, so `eval` does not return the final operand. -/
theorem c10_counterexample :
    depthSim (List.replicate 65 Op.one ++ List.replicate 64 Op.add) 0 =
      some (1, 65) ∧
    evalMember (List.replicate 65 Op.one ++ List.replicate 64 Op.add)
      0 [] = none := by
  set_option maxRecDepth 4000 in exact ⟨by decide, by rfl⟩

/-- C10 (amended): with the additional hypothesis that the maximum
stack depth of the run stays within the capacity 64, `eval` returns
the single operand computed by the ideal unbounded-stack run and
leaves the `Composer`'s operand stack empty again — hence successive
`eval` calls on the same `Composer` are independent. -/
theorem c10_eval_returns_final_operand :
    ∀ (P : List Op) (xv v : ℝ) (fin m : Nat),
      depthSim P 0 = some (fin, m) → m ≤ 64 →
      runAbs P xv [] = some [v] →
      evalMember P xv [] = some (v, []) := by
  intro P xv v fin m hd hm hrun
  have hagree := runCB_eq_runAbs P xv [] fin m (by simpa using hd) hm
  simp only [evalMember, hagree, hrun]

/-- C10 (witness): the amended theorem applied to the one-symbol
program `x` at `x = 0`. -/
theorem c10_witness :
    evalMember [Op.x] (0 : ℝ) [] = some ((0 : ℝ), []) :=
  c10_eval_returns_final_operand [Op.x] 0 0 1 1 (by decide) (by decide) rfl
